import Mathlib

/-!
Shallow embedding of the cryptography lab sources `src/rsa.py` and `src/elgamal.py`.

Conventions used throughout:
* Python non-negative machine-free integers become `Nat`; values that Python
  computes with possibly negative intermediates (Bezout coefficients, the
  ElGamal quantity `H - x*r`) become `Int`, with Python's `%` on a positive
  modulus matching Lean's `Int.emod` (both return a value in `[0, modulus)`).
* Python `while` loops that are not structurally recursive are embedded with an
  explicit fuel argument chosen so that the fuel can never be exhausted on any
  input reachable from the embedded callers; each such spot is commented.
* Calls to `random.randint(lo, hi)` are replaced by an explicit parameter for
  the drawn value; the contract `lo ≤ t ≤ hi` of `randint` becomes a hypothesis
  of the theorems that need it.
* The SHA-256 digest of `hashlib` is embedded below as `sha256` on the byte
  list of the UTF-8 encoded message (`m.encode()`), returning the digest read
  as a big-endian integer exactly as `int(sha256(...).hexdigest(), 16)` does.
-/

/-- Loop of `quick_pow` from `src/rsa.py` lines 100-107 (identical in
`src/elgamal.py` lines 5-15): `while e: if e & 1: ans = (ans * m) % n;
m = m * m % n; e >>= 1`.  `e & 1` is `e % 2` and `e >>= 1` is `e / 2`.
The fuel is at least the number of iterations (the exponent halves each pass,
so `e` iterations always suffice); with fuel `e` the fuel-out branch returns
the same value the `e = 0` test would. -/
def qp_go : Nat → Nat → Nat → Nat → Nat → Nat
  | 0, _, _, _, ans => ans
  | fuel + 1, m, e, n, ans =>
    if e = 0 then ans
    else qp_go fuel (m * m % n) (e / 2) n (if e % 2 = 1 then ans * m % n else ans)

/-- `quick_pow(m, e, n)` from `src/rsa.py` lines 100-107 / `src/elgamal.py`
lines 5-15: square-and-multiply exponentiation, `ans` starts at `1`. -/
def quick_pow (m e n : Nat) : Nat := qp_go e m e n 1

/-- Recursion of `extended_gcd(a, b)` from `src/rsa.py` lines 72-79 /
`src/elgamal.py` lines 119-126, on non-negative inputs.  The returned triple is
`(gcd, x, y)` with the Bezout coefficients as (possibly negative) integers.
Fuel bounds the recursion depth: the second argument strictly decreases
(`a % b < b`), so fuel `b` suffices, and the fuel-out branch only triggers at
`b = 0` where it returns exactly the `b == 0` base case. -/
def extended_gcd_go : Nat → Nat → Nat → Nat × Int × Int
  | 0, a, _ => (a, 1, 0)
  | fuel + 1, a, b =>
    if b = 0 then (a, 1, 0)
    else
      let r := extended_gcd_go fuel b (a % b)
      (r.1, r.2.2, r.2.1 - ((a / b : Nat) : Int) * r.2.2)

/-- `extended_gcd(a, b)` from `src/rsa.py` lines 72-79 / `src/elgamal.py`
lines 119-126. -/
def extended_gcd (a b : Nat) : Nat × Int × Int := extended_gcd_go b a b

/-- `mod_inverse(e, phi_n)` from `src/rsa.py` lines 82-97 / `src/elgamal.py`
lines 129-144.  `none` models an exception: the `ValueError` raised when
`gcd != 1`, and also the `ZeroDivisionError` that Python's `x % phi_n` raises
when `phi_n = 0` (reachable only for `e = 1, phi_n = 0`, where `gcd = 1`). -/
def mod_inverse (e phi_n : Nat) : Option Nat :=
  let r := extended_gcd e phi_n
  if r.1 ≠ 1 then none
  else if phi_n = 0 then none
  else some ((r.2.1 % (phi_n : Int)).toNat)

/-- The witness drawn in `_miller_rabin_test` (`src/rsa.py` line 12 /
`src/elgamal.py` line 26): `a = 2 + random.randint(1, n - 4)`, with `t` the
value returned by `random.randint(1, n - 4)`. -/
def mr_witness (t : Nat) : Nat := 2 + t

/-- The `while d != n - 1` loop of `_miller_rabin_test` (`src/rsa.py`
lines 18-27): square `x`, double `d`, exit on `x = 1` (composite) or
`x = n - 1` (probable prime); falling out of the loop returns `False`.
From `is_prime`, `d` starts as the odd part of `n - 1`, so the loop runs at
most `log2 n` times before `d = n - 1`; fuel `n` therefore can never run out
on a reachable call (the fuel-out branch mirrors the loop's final `False`). -/
def mr_loop : Nat → Nat → Nat → Nat → Bool
  | 0, _, _, _ => false
  | fuel + 1, x, d, n =>
    if d = n - 1 then false
    else
      let x2 := x * x % n
      if x2 = 1 then false
      else if x2 = n - 1 then true
      else mr_loop fuel x2 (d * 2) n

/-- `_miller_rabin_test(d, n)` from `src/rsa.py` lines 3-27 / `src/elgamal.py`
lines 17-41, with the `random.randint(1, n - 4)` draw made an explicit
parameter `t` (so `a = mr_witness t = 2 + t`). -/
def miller_rabin_test (t d n : Nat) : Bool :=
  let a := mr_witness t
  let x := quick_pow a d n
  if x = 1 ∨ x = n - 1 then true
  else mr_loop n x d n

/-- The `while d % 2 == 0: d //= 2` loop of `is_prime` (`src/rsa.py`
lines 46-48): extract the odd part.  `d` at least halves each pass, so fuel
`d` always suffices; from `is_prime` the initial `d = n - 1` is positive. -/
def odd_part_go : Nat → Nat → Nat
  | 0, d => d
  | fuel + 1, d => if d % 2 = 0 then odd_part_go fuel (d / 2) else d

/-- The `for _ in range(k)` loop of `is_prime` (`src/rsa.py` lines 50-52):
run `k` rounds of `miller_rabin_test`, failing fast; round `i` uses the random
draw `ws i`. -/
def is_prime_rounds : Nat → Nat → Nat → Nat → (Nat → Nat) → Bool
  | 0, _, _, _, _ => true
  | k + 1, i, d, n, ws =>
    if miller_rabin_test (ws i) d n then is_prime_rounds k (i + 1) d n ws else false

/-- `is_prime(n, k)` from `src/rsa.py` lines 30-54 / `src/elgamal.py`
lines 44-68, with the per-round `random.randint(1, n - 4)` draws supplied by
the stream `ws`. -/
def is_prime (n : Nat) (k : Nat) (ws : Nat → Nat) : Bool :=
  if n ≤ 1 then false
  else if n ≤ 3 then true
  else if n % 2 = 0 then false
  else is_prime_rounds k 0 (odd_part_go (n - 1) (n - 1)) n ws

/-- Characterization of `qp_go`: the loop computes `ans * m ^ e` reduced
modulo `n` (for any `n`, using Lean's `x % 0 = x`; all claims use `n ≥ 1`),
as long as the fuel is at least the exponent. -/
theorem qp_go_eq (fuel m e n ans : Nat) (hfuel : e ≤ fuel) :
    qp_go fuel m e n ans = if e = 0 then ans else ans * m ^ e % n := by
  induction fuel generalizing m e ans with
  | zero =>
    interval_cases e
    simp [qp_go]
  | succ fuel ih =>
    by_cases he : e = 0
    · simp [qp_go, he]
    · have he1 : 1 ≤ e := Nat.one_le_iff_ne_zero.mpr he
      have hhalf : e / 2 ≤ fuel := by omega
      rw [qp_go, if_neg he, ih _ _ _ hhalf]
      by_cases he2 : e / 2 = 0
      · have he' : e = 1 := by omega
        subst he'
        simp [pow_one]
      · rw [if_neg he2, if_neg he]
        have hmm : (m * m % n) ^ (e / 2) ≡ (m * m) ^ (e / 2) [MOD n] :=
          Nat.ModEq.pow _ (Nat.mod_modEq (m * m) n)
        have hans : (if e % 2 = 1 then ans * m % n else ans) ≡ ans * m ^ (e % 2) [MOD n] := by
          by_cases hodd : e % 2 = 1
          · rw [if_pos hodd, hodd, pow_one]
            exact Nat.mod_modEq (ans * m) n
          · have heven : e % 2 = 0 := by omega
            rw [if_neg hodd, heven, pow_zero, mul_one]
        have hmul := hans.mul hmm
        have hrw : ans * m ^ (e % 2) * (m * m) ^ (e / 2) = ans * m ^ e := by
          rw [← pow_two, ← pow_mul, mul_assoc, ← pow_add]
          have hexp : e % 2 + 2 * (e / 2) = e := by omega
          rw [hexp]
        rw [hrw] at hmul
        exact hmul

/-- `quick_pow m e n` equals `m ^ e % n` except that a zero exponent returns
the unreduced `1` (visible only at `n = 1`). -/
theorem quick_pow_eq (m e n : Nat) :
    quick_pow m e n = if e = 0 then 1 else m ^ e % n := by
  rw [quick_pow, qp_go_eq e m e n 1 le_rfl]
  simp

/-- For a modulus of at least `2`, `quick_pow` is exactly modular
exponentiation. -/
theorem quick_pow_eq_pow_mod (m e n : Nat) (hn : 2 ≤ n) :
    quick_pow m e n = m ^ e % n := by
  rw [quick_pow_eq]
  by_cases he : e = 0
  · subst he
    rw [if_pos rfl, pow_zero, Nat.mod_eq_of_lt hn]
  · rw [if_neg he]

/-- The recursion of `extended_gcd` computes the gcd together with a Bezout
identity, provided the fuel is at least the second argument. -/
theorem extended_gcd_go_spec (fuel : Nat) :
    ∀ a b : Nat, b ≤ fuel →
      (extended_gcd_go fuel a b).1 = Nat.gcd a b ∧
      (a : ℤ) * (extended_gcd_go fuel a b).2.1 + (b : ℤ) * (extended_gcd_go fuel a b).2.2 =
        ((extended_gcd_go fuel a b).1 : ℤ) := by
  induction fuel with
  | zero =>
    intro a b hb
    have hb0 : b = 0 := by omega
    subst hb0
    simp [extended_gcd_go]
  | succ fuel ih =>
    intro a b hb
    by_cases hb0 : b = 0
    · subst hb0
      simp [extended_gcd_go]
    · have hlt : a % b < b := Nat.mod_lt a (Nat.pos_of_ne_zero hb0)
      have hble : a % b ≤ fuel := by omega
      obtain ⟨ih1, ih2⟩ := ih b (a % b) hble
      have hgcd : Nat.gcd b (a % b) = Nat.gcd a b := by
        rw [Nat.gcd_comm b (a % b), ← Nat.gcd_rec b a, Nat.gcd_comm b a]
      have hunfold : extended_gcd_go (fuel + 1) a b =
          ((extended_gcd_go fuel b (a % b)).1, (extended_gcd_go fuel b (a % b)).2.2,
            (extended_gcd_go fuel b (a % b)).2.1 -
              ((a / b : Nat) : ℤ) * (extended_gcd_go fuel b (a % b)).2.2) := by
        simp only [extended_gcd_go]
        rw [if_neg hb0]
      rw [hunfold]
      constructor
      · show (extended_gcd_go fuel b (a % b)).1 = Nat.gcd a b
        rw [ih1, hgcd]
      · show (a : ℤ) * (extended_gcd_go fuel b (a % b)).2.2 +
          (b : ℤ) * ((extended_gcd_go fuel b (a % b)).2.1 -
            ((a / b : Nat) : ℤ) * (extended_gcd_go fuel b (a % b)).2.2) =
          ((extended_gcd_go fuel b (a % b)).1 : ℤ)
        have hdm : (b : ℤ) * ((a / b : Nat) : ℤ) + ((a % b : Nat) : ℤ) = (a : ℤ) := by
          exact_mod_cast Nat.div_add_mod a b
        linear_combination ih2 - (extended_gcd_go fuel b (a % b)).2.2 * hdm

/-- C6: for all non-negative integers `a` and `b`, `extended_gcd(a, b)`
returns a triple `(g, x, y)` such that `g = gcd(a, b)` and `a*x + b*y = g`
(the Bezout identity). -/
theorem extended_gcd_bezout (a b : Nat) :
    (extended_gcd a b).1 = Nat.gcd a b ∧
    (a : ℤ) * (extended_gcd a b).2.1 + (b : ℤ) * (extended_gcd a b).2.2 =
      ((extended_gcd a b).1 : ℤ) :=
  extended_gcd_go_spec b a b le_rfl

/-- C3 (amended): for every modulus `m ≥ 1`, `mod_inverse(e, m)` errors exactly
when `gcd(e, m) ≠ 1`; when `gcd(e, m) = 1` and `m > 1` it returns the unique
`d` in `[0, m)` with `(e * d) % m = 1`.  (At `m = 0` the function can also
error with `gcd(e, m) = 1`, via Python's division by zero; see the
counterexample.) -/
theorem mod_inverse_spec (e m : Nat) :
    (1 ≤ m → (mod_inverse e m = none ↔ Nat.gcd e m ≠ 1)) ∧
    (Nat.gcd e m = 1 → 1 < m →
      ∃ d, mod_inverse e m = some d ∧ d < m ∧ e * d % m = 1 ∧
        ∀ d2, d2 < m → e * d2 % m = 1 → d2 = d) := by
  obtain ⟨hg, hbez⟩ := extended_gcd_bezout e m
  constructor
  · intro hm
    by_cases hco : Nat.gcd e m = 1
    · simp [mod_inverse, hg, hco, Nat.one_le_iff_ne_zero.mp hm]
    · simp [mod_inverse, hg, hco]
  · intro hco hm
    have hm0 : m ≠ 0 := by omega
    have hg1 : (extended_gcd e m).1 = 1 := by rw [hg, hco]
    have hmZ : (0 : ℤ) < (m : ℤ) := by exact_mod_cast Nat.pos_of_ne_zero hm0
    have hmZ0 : (m : ℤ) ≠ 0 := ne_of_gt hmZ
    set x := (extended_gcd e m).2.1 with hx
    set y := (extended_gcd e m).2.2 with hy
    have hbez1 : (e : ℤ) * x + (m : ℤ) * y = 1 := by
      rw [hbez, hg1]
      norm_num
    have hnonneg : 0 ≤ x % (m : ℤ) := Int.emod_nonneg x hmZ0
    set d := (x % (m : ℤ)).toNat with hd
    have hdZ : (d : ℤ) = x % (m : ℤ) := Int.toNat_of_nonneg hnonneg
    have hsome : mod_inverse e m = some d := by
      simp [mod_inverse, hg1, hm0, hd]
    have hdlt : d < m := by
      have := Int.emod_lt_of_pos x hmZ
      omega
    have hmodeq : (e : ℤ) * d ≡ 1 [ZMOD (m : ℤ)] := by
      have h1 : (e : ℤ) * d ≡ (e : ℤ) * x [ZMOD (m : ℤ)] := by
        rw [hdZ]
        exact Int.ModEq.mul_left (e : ℤ) (Int.emod_emod_of_dvd x dvd_rfl ▸ Int.mod_modEq x (m : ℤ))
      have h2 : (e : ℤ) * x ≡ 1 [ZMOD (m : ℤ)] := by
        rw [Int.modEq_iff_dvd]
        exact ⟨y, by linarith⟩
      exact h1.trans h2
    have hnat : e * d ≡ 1 [MOD m] := by
      have hcast : ((e * d : Nat) : ℤ) ≡ ((1 : Nat) : ℤ) [ZMOD ((m : Nat) : ℤ)] := by
        push_cast
        exact hmodeq
      exact Int.natCast_modEq_iff.mp hcast
    have hmod : e * d % m = 1 := by
      have := hnat
      unfold Nat.ModEq at this
      rwa [Nat.mod_eq_of_lt hm] at this
    refine ⟨d, hsome, hdlt, hmod, ?_⟩
    intro d2 hd2 hmod2
    have heq : e * d2 ≡ e * d [MOD m] := by
      unfold Nat.ModEq
      rw [hmod, hmod2]
    have hgm : Nat.gcd m e = 1 := by rwa [Nat.gcd_comm]
    have hcancel : d2 ≡ d [MOD m] := Nat.ModEq.cancel_left_of_coprime hgm heq
    have : d2 % m = d % m := hcancel
    rwa [Nat.mod_eq_of_lt hd2, Nat.mod_eq_of_lt hdlt] at this

/-- C3 counterexample: at `e = 1, m = 0` we have `gcd(e, m) = 1`, yet
`mod_inverse(1, 0)` errors (Python raises `ZeroDivisionError` at `x % 0`),
so the error condition is not exactly `gcd(e, m) ≠ 1`. -/
theorem mod_inverse_gcd_one_error : Nat.gcd 1 0 = 1 ∧ mod_inverse 1 0 = none := by
  constructor
  · rfl
  · rfl

/-- Fermat consequence: modulo a prime `p`, raising to an exponent
`t*(p-1) + 1` fixes every residue (including multiples of `p`). -/
theorem pow_fermat (p m t : Nat) (hp : p.Prime) : m ^ (t * (p - 1) + 1) ≡ m [MOD p] := by
  by_cases hdvd : p ∣ m
  · have hm0 : m ≡ 0 [MOD p] := Nat.modEq_zero_iff_dvd.mpr hdvd
    have h1 : m ^ (t * (p - 1) + 1) ≡ 0 ^ (t * (p - 1) + 1) [MOD p] := hm0.pow _
    have h2 : (0 : Nat) ^ (t * (p - 1) + 1) = 0 := zero_pow (Nat.succ_ne_zero _)
    rw [h2] at h1
    exact h1.trans hm0.symm
  · have hco : Nat.Coprime m p := ((Nat.Prime.coprime_iff_not_dvd hp).mpr hdvd).symm
    have heuler : m ^ (p - 1) ≡ 1 [MOD p] := by
      have h := Nat.ModEq.pow_totient hco
      rwa [Nat.totient_prime hp] at h
    have hsplit : m ^ (t * (p - 1) + 1) = (m ^ (p - 1)) ^ t * m := by
      rw [pow_succ, mul_comm t (p - 1), pow_mul]
    rw [hsplit]
    have h3 : (m ^ (p - 1)) ^ t ≡ 1 [MOD p] := by
      have := heuler.pow t
      simpa using this
    have h4 : (m ^ (p - 1)) ^ t * m ≡ 1 * m [MOD p] := h3.mul_right m
    rwa [one_mul] at h4

/-- Exponents congruent modulo `p - 1` give the same power of a base not
divisible by the prime `p` (Fermat little theorem on exponents). -/
theorem pow_congr_exp (p g a b : Nat) (hp : p.Prime) (hg : ¬p ∣ g)
    (h : a ≡ b [MOD p - 1]) : g ^ a ≡ g ^ b [MOD p] := by
  have hco : Nat.Coprime g p := ((Nat.Prime.coprime_iff_not_dvd hp).mpr hg).symm
  have heuler : g ^ (p - 1) ≡ 1 [MOD p] := by
    have h := Nat.ModEq.pow_totient hco
    rwa [Nat.totient_prime hp] at h
  have key : ∀ a b : Nat, a ≤ b → a ≡ b [MOD p - 1] → g ^ a ≡ g ^ b [MOD p] := by
    intro a b hab hmod
    obtain ⟨t, ht⟩ := (Nat.modEq_iff_dvd' hab).mp hmod
    have hb : b = a + (p - 1) * t := by omega
    rw [hb, pow_add, pow_mul]
    have h2 : (g ^ (p - 1)) ^ t ≡ 1 [MOD p] := by
      have := heuler.pow t
      simpa using this
    have h3 : g ^ a * (g ^ (p - 1)) ^ t ≡ g ^ a * 1 [MOD p] := h2.mul_left (g ^ a)
    rw [mul_one] at h3
    exact h3.symm
  rcases le_total a b with hab | hab
  · exact key a b hab h
  · exact (key b a hab h.symm).symm

/-- `rsa_encrypt(plaintext_list, e, n)` from `src/rsa.py` lines 133-149:
encrypt each element independently with `quick_pow(m, e, n)`,
order-preserving. -/
def rsa_encrypt (plaintext_list : List Nat) (e n : Nat) : List Nat :=
  plaintext_list.map (fun m => quick_pow m e n)

/-- `rsa_decrypt(ciphertext_list, d, n)` from `src/rsa.py` lines 151-167:
decrypt each element independently with `quick_pow(c, d, n)`. -/
def rsa_decrypt (ciphertext_list : List Nat) (d n : Nat) : List Nat :=
  ciphertext_list.map (fun c => quick_pow c d n)

/-- Single-element RSA correctness: with distinct primes `p, q` and exponents
satisfying `e*d ≡ 1 (mod (p-1)*(q-1))`, decryption inverts encryption on any
`m < p*q`. -/
theorem rsa_element (p q e d m : Nat) (hp : p.Prime) (hq : q.Prime) (hpq : p ≠ q)
    (hed : e * d % ((p - 1) * (q - 1)) = 1) (hm : m < p * q) :
    quick_pow (quick_pow m e (p * q)) d (p * q) = m := by
  have hp2 : 2 ≤ p := hp.two_le
  have hq2 : 2 ≤ q := hq.two_le
  have hn2 : 2 ≤ p * q := le_trans (by norm_num) (Nat.mul_le_mul hp2 hq2)
  have hphi : 2 ≤ (p - 1) * (q - 1) := by
    have h3 : 3 ≤ p ∨ 3 ≤ q := by omega
    rcases h3 with h3 | h3
    · calc 2 = 2 * 1 := by norm_num
        _ ≤ (p - 1) * (q - 1) := Nat.mul_le_mul (by omega) (by omega)
    · calc 2 = 1 * 2 := by norm_num
        _ ≤ (p - 1) * (q - 1) := Nat.mul_le_mul (by omega) (by omega)
  have hed1 : 1 ≤ e * d := by
    by_contra hc
    have h0 : e * d = 0 := by omega
    rw [h0, Nat.zero_mod] at hed
    exact absurd hed (by norm_num)
  have hmodeq : e * d ≡ 1 [MOD (p - 1) * (q - 1)] := by
    unfold Nat.ModEq
    rw [hed, Nat.mod_eq_of_lt (by omega)]
  have hper : ∀ r : Nat, r.Prime → (r - 1) ∣ (p - 1) * (q - 1) →
      m ^ (e * d) ≡ m [MOD r] := by
    intro r hr hdvd
    have hmodr : e * d ≡ 1 [MOD r - 1] := Nat.ModEq.of_dvd hdvd hmodeq
    obtain ⟨t, ht⟩ := (Nat.modEq_iff_dvd' hed1).mp hmodr.symm
    have hsum := Nat.sub_add_cancel hed1
    rw [ht] at hsum
    have hsplit : e * d = t * (r - 1) + 1 := by rw [← hsum, mul_comm]
    rw [hsplit]
    exact pow_fermat r m t hr
  have hmp : m ^ (e * d) ≡ m [MOD p] := hper p hp (Dvd.intro (q - 1) rfl)
  have hmq : m ^ (e * d) ≡ m [MOD q] := hper q hq (Dvd.intro_left (p - 1) rfl)
  have hco : Nat.Coprime p q := (Nat.coprime_primes hp hq).mpr hpq
  have hmn : m ^ (e * d) ≡ m [MOD p * q] :=
    (Nat.modEq_and_modEq_iff_modEq_mul hco).mp ⟨hmp, hmq⟩
  rw [quick_pow_eq_pow_mod _ _ _ hn2, quick_pow_eq_pow_mod _ _ _ hn2,
    ← Nat.pow_mod, ← pow_mul]
  have hfinal : m ^ (e * d) % (p * q) = m % (p * q) := hmn
  rw [hfinal, Nat.mod_eq_of_lt hm]

/-- C1: for every RSA key pair with distinct primes `p`, `q`, `n = p*q`, and
exponents with `(e*d) % ((p-1)*(q-1)) = 1`, and every list of plaintext
integers each in `[0, n)`, `rsa_decrypt(rsa_encrypt(plaintext, e, n), d, n)`
returns the original list. -/
theorem rsa_roundtrip (p q n e d : Nat) (L : List Nat) (hp : p.Prime)
    (hq : q.Prime) (hpq : p ≠ q) (hn : n = p * q)
    (hed : e * d % ((p - 1) * (q - 1)) = 1) (hL : ∀ m ∈ L, m < n) :
    rsa_decrypt (rsa_encrypt L e n) d n = L := by
  subst hn
  induction L with
  | nil => rfl
  | cons a L ih =>
    have ha : a < p * q := hL a (List.mem_cons_self a L)
    have hL2 : ∀ m ∈ L, m < p * q := fun m hm => hL m (List.mem_cons_of_mem a hm)
    have htail := ih hL2
    simp only [rsa_encrypt, rsa_decrypt, List.map_cons] at htail ⊢
    rw [rsa_element p q e d a hp hq hpq hed ha, htail]

/-- Witness for C1 at `p = 3, q = 5, e = d = 3`, plaintext `[2, 14]`. -/
theorem rsa_roundtrip_witness :
    Nat.Prime 3 ∧ Nat.Prime 5 ∧ 3 ≠ 5 ∧ 15 = 3 * 5 ∧
      3 * 3 % ((3 - 1) * (5 - 1)) = 1 ∧ (∀ m ∈ [2, 14], m < 15) ∧
      rsa_decrypt (rsa_encrypt [2, 14] 3 15) 3 15 = [2, 14] :=
  ⟨by decide, by decide, by decide, by decide, by decide, by decide,
    rsa_roundtrip 3 5 15 3 3 [2, 14] (by decide) (by decide) (by decide) (by decide)
      (by decide) (by decide)⟩

/-- C5 (amended): for any base `m` and exponent `e`, `quick_pow(m, e, n)`
returns `m^e mod n` whenever `n ≥ 2`, and also whenever `n = 1` with `e ≥ 1`;
a zero exponent always returns the unreduced `1`, which at `n = 1` differs
from `m^0 mod 1 = 0`. -/
theorem quick_pow_spec (m e n : Nat) :
    (2 ≤ n → quick_pow m e n = m ^ e % n) ∧
    quick_pow m 0 n = 1 ∧
    (1 ≤ n → 1 ≤ e → quick_pow m e n = m ^ e % n) := by
  refine ⟨fun hn => quick_pow_eq_pow_mod m e n hn, ?_, ?_⟩
  · rw [quick_pow_eq]
    simp
  · intro hn he
    rw [quick_pow_eq, if_neg (by omega)]

/-- C5 counterexample: at `m = 5, e = 0, n = 1` the code returns `1` but
`m^e mod n = 0`, so `quick_pow` is not `m^e mod n` for every positive
modulus. -/
theorem quick_pow_zero_exp_mod_one : quick_pow 5 0 1 = 1 ∧ 5 ^ 0 % 1 = 0 := by
  constructor
  · rfl
  · rfl

/-- Witness for `quick_pow_spec` at `m = 7, e = 5, n = 13`. -/
theorem quick_pow_spec_witness : 2 ≤ 13 ∧ quick_pow 7 5 13 = 7 ^ 5 % 13 :=
  ⟨by decide, (quick_pow_spec 7 5 13).1 (by decide)⟩

/-- C9: `is_prime` decides `n ≤ 1` (reject), `n ∈ {2,3}` (accept) and even
`n > 2` (reject) deterministically — for every round count and every stream of
random draws — and these answers agree with true primality. -/
theorem is_prime_small_inputs (n k : Nat) (ws : Nat → Nat) :
    (n ≤ 1 → is_prime n k ws = false ∧ ¬Nat.Prime n) ∧
    (n = 2 ∨ n = 3 → is_prime n k ws = true ∧ Nat.Prime n) ∧
    (2 < n → n % 2 = 0 → is_prime n k ws = false ∧ ¬Nat.Prime n) := by
  refine ⟨?_, ?_, ?_⟩
  · intro h
    refine ⟨?_, fun hp => absurd hp.two_le (by omega)⟩
    rw [is_prime, if_pos h]
  · rintro (rfl | rfl)
    · exact ⟨rfl, by norm_num⟩
    · exact ⟨rfl, by norm_num⟩
  · intro h2 heven
    constructor
    · rw [is_prime, if_neg (by omega : ¬n ≤ 1), if_neg (by omega : ¬n ≤ 3), if_pos heven]
    · intro hp
      have h4 : n = 2 := (Nat.Prime.even_iff hp).mp (Nat.even_iff.mpr heven)
      omega

/-- Witness for `is_prime_small_inputs` at `n = 1, 2, 4` with the constant
draw stream `1`. -/
theorem is_prime_small_inputs_witness :
    is_prime 1 5 (fun _ => 1) = false ∧ is_prime 2 5 (fun _ => 1) = true ∧
      is_prime 4 5 (fun _ => 1) = false :=
  ⟨((is_prime_small_inputs 1 5 (fun _ => 1)).1 (by decide)).1,
    ((is_prime_small_inputs 2 5 (fun _ => 1)).2.1 (Or.inl rfl)).1,
    ((is_prime_small_inputs 4 5 (fun _ => 1)).2.2 (by decide) (by decide)).1⟩

/-- C4 (amended): for every `n ≥ 5`, the Miller-Rabin witness `a = 2 + t`
with `t` drawn by `random.randint(1, n-4)` ranges over exactly the interval
`[3, n-2]` (a bijective shift of the uniform draw, hence uniform on
`[3, n-2]`); in particular `a = 2` is never drawn. -/
theorem mr_witness_range (n a : Nat) (hn : 5 ≤ n) :
    (∃ t, 1 ≤ t ∧ t ≤ n - 4 ∧ mr_witness t = a) ↔ 3 ≤ a ∧ a ≤ n - 2 := by
  unfold mr_witness
  constructor
  · rintro ⟨t, h1, h2, rfl⟩
    omega
  · intro h
    exact ⟨a - 2, by omega, by omega, by omega⟩

/-- C4 counterexample: at `n = 11` no admissible draw of
`random.randint(1, n-4)` produces the witness `a = 2`, contradicting the
claim that every integer in `[2, n-2]`, including `2`, is possible. -/
theorem mr_witness_two_impossible : ¬∃ t, 1 ≤ t ∧ t ≤ 11 - 4 ∧ mr_witness t = 2 := by
  rintro ⟨t, h1, h2, h3⟩
  unfold mr_witness at h3
  omega

/-- Witness for `mr_witness_range` at `n = 11, a = 3`. -/
theorem mr_witness_range_witness :
    5 ≤ 11 ∧ ((∃ t, 1 ≤ t ∧ t ≤ 11 - 4 ∧ mr_witness t = 3) ↔ 3 ≤ 3 ∧ 3 ≤ 11 - 2) :=
  ⟨by decide, mr_witness_range 11 3 (by decide)⟩

/-- Witness for `mod_inverse_spec` at `e = 3, m = 7`. -/
theorem mod_inverse_spec_witness :
    (1 ≤ 7 ∧ (mod_inverse 3 7 = none ↔ Nat.gcd 3 7 ≠ 1)) ∧
      (Nat.gcd 3 7 = 1 ∧ 1 < 7 ∧
        ∃ d, mod_inverse 3 7 = some d ∧ d < 7 ∧ 3 * d % 7 = 1 ∧
          ∀ d2, d2 < 7 → 3 * d2 % 7 = 1 → d2 = d) :=
  ⟨⟨by decide, (mod_inverse_spec 3 7).1 (by decide)⟩,
    ⟨by decide, by decide, (mod_inverse_spec 3 7).2 (by decide) (by decide)⟩⟩

/-- Truncation to 32 bits, used by every SHA-256 word operation. -/
def w32 (x : Nat) : Nat := x % 4294967296

/-- 32-bit right rotation. -/
def rotr32 (n x : Nat) : Nat := w32 ((x >>> n) ||| (x <<< (32 - n)))

/-- SHA-256 small sigma 0. -/
def ssig0 (x : Nat) : Nat := rotr32 7 x ^^^ rotr32 18 x ^^^ (x >>> 3)

/-- SHA-256 small sigma 1. -/
def ssig1 (x : Nat) : Nat := rotr32 17 x ^^^ rotr32 19 x ^^^ (x >>> 10)

/-- SHA-256 big sigma 0. -/
def bsig0 (x : Nat) : Nat := rotr32 2 x ^^^ rotr32 13 x ^^^ rotr32 22 x

/-- SHA-256 big sigma 1. -/
def bsig1 (x : Nat) : Nat := rotr32 6 x ^^^ rotr32 11 x ^^^ rotr32 25 x

/-- The 64 SHA-256 round constants (FIPS 180-4). -/
def sha256_k : List Nat :=
  [1116352408, 1899447441, 3049323471, 3921009573,
   961987163, 1508970993, 2453635748, 2870763221,
   3624381080, 310598401, 607225278, 1426881987,
   1925078388, 2162078206, 2614888103, 3248222580,
   3835390401, 4022224774, 264347078, 604807628,
   770255983, 1249150122, 1555081692, 1996064986,
   2554220882, 2821834349, 2952996808, 3210313671,
   3336571891, 3584528711, 113926993, 338241895,
   666307205, 773529912, 1294757372, 1396182291,
   1695183700, 1986661051, 2177026350, 2456956037,
   2730485921, 2820302411, 3259730800, 3345764771,
   3516065817, 3600352804, 4094571909, 275423344,
   430227734, 506948616, 659060556, 883997877,
   958139571, 1322822218, 1537002063, 1747873779,
   1955562222, 2024104815, 2227730452, 2361852424,
   2428436474, 2756734187, 3204031479, 3329325298]

/-- The SHA-256 initial hash value (FIPS 180-4). -/
def sha256_h0 : List Nat :=
  [1779033703, 3144134277, 1013904242, 2773480762,
   1359893119, 2600822924, 528734635, 1541459225]

/-- SHA-256 padding: append `0x80`, zero bytes to 56 mod 64, then the bit
length as 8 big-endian bytes. -/
def sha256_pad (msg : List Nat) : List Nat :=
  let len := msg.length
  let zeros := (120 - (len + 1) % 64) % 64
  let bitlen := 8 * len
  msg ++ [128] ++ List.replicate zeros 0 ++
    (List.range 8).map (fun i => (bitlen >>> (8 * (7 - i))) &&& 255)

/-- Group padded bytes into big-endian 32-bit words. -/
def bytes_to_words : List Nat → List Nat
  | b0 :: b1 :: b2 :: b3 :: rest =>
    (((b0 * 256 + b1) * 256 + b2) * 256 + b3) :: bytes_to_words rest
  | _ => []

/-- Split the word list into 16-word blocks (fuel = list length suffices). -/
def chunk16_go : Nat → List Nat → List (List Nat)
  | 0, _ => []
  | _ + 1, [] => []
  | fuel + 1, ws => ws.take 16 :: chunk16_go fuel (ws.drop 16)

/-- Extend a 16-word block to the 64-word message schedule (48 steps). -/
def sched_go : Nat → List Nat → List Nat
  | 0, ws => ws
  | fuel + 1, ws =>
    let t := ws.length
    let nw := w32 (ssig1 (ws.getD (t - 2) 0) + ws.getD (t - 7) 0 +
      ssig0 (ws.getD (t - 15) 0) + ws.getD (t - 16) 0)
    sched_go fuel (ws ++ [nw])

/-- The 64 SHA-256 compression rounds over state `[a,b,c,d,e,f,g,h]`. -/
def comp_go : List (Nat × Nat) → List Nat → List Nat
  | [], st => st
  | (ki, wi) :: rest, st =>
    let a := st.getD 0 0
    let b := st.getD 1 0
    let c := st.getD 2 0
    let d := st.getD 3 0
    let e := st.getD 4 0
    let f := st.getD 5 0
    let g := st.getD 6 0
    let h := st.getD 7 0
    let temp1 := w32 (h + bsig1 e + ((e &&& f) ^^^ ((e ^^^ 4294967295) &&& g)) + ki + wi)
    let temp2 := w32 (bsig0 a + ((a &&& b) ^^^ (a &&& c) ^^^ (b &&& c)))
    comp_go rest [w32 (temp1 + temp2), a, b, c, w32 (d + temp1), e, f, g]

/-- One SHA-256 block step: schedule, compress, add back. -/
def sha256_block (hv block : List Nat) : List Nat :=
  let ws := sched_go 48 block
  let st := comp_go (sha256_k.zip ws) hv
  (hv.zip st).map (fun p => w32 (p.1 + p.2))

/-- SHA-256 of a byte list, returned as the digest read as a big-endian
integer — exactly `int(sha256(msg).hexdigest(), 16)` in the source.  The
message strings of `src/elgamal.py` enter as the bytes of `m.encode()`. -/
def sha256 (msg : List Nat) : Nat :=
  let blocks := chunk16_go (sha256_pad msg).length (bytes_to_words (sha256_pad msg))
  let hv := blocks.foldl sha256_block sha256_h0
  hv.foldl (fun acc w => acc * 4294967296 + w) 0

-- FIPS 180-4 test vector: the empty message.
set_option maxRecDepth 40000 in
example : sha256 [] = 0xe3b0c44298fc1c149afbf4c8996fb92427ae41e4649b934ca495991b7852b855 := by
  decide

-- FIPS 180-4 test vector: the three-byte message with bytes 97, 98, 99.
set_option maxRecDepth 40000 in
example : sha256 [97, 98, 99] = 0xba7816bf8f01cfea414140de5dae2223b00361a396177a9cb410ff61f20015ad := by
  decide

/-- One candidate round of `gen_large_prime()` from `src/elgamal.py`
lines 71-86, iterated below: draw `large_prime = random.randint(2**63,
2**64 - 1)`, test it, then test `q = (large_prime - 1) // 2`.  Iteration `i`
uses the candidate `cands i` and the witness streams `ws1 i` / `ws2 i` for the
two `is_prime` calls.  The loop is unbounded in the source; the fuel only
truncates the search, every `some` result is produced by a genuine loop
exit. -/
def glp_go : Nat → Nat → (Nat → Nat) → (Nat → Nat → Nat) → (Nat → Nat → Nat) → Option Nat
  | 0, _, _, _, _ => none
  | fuel + 1, i, cands, ws1, ws2 =>
    let c := cands i
    if is_prime c 5 (ws1 i) then
      if is_prime ((c - 1) / 2) 5 (ws2 i) then some c
      else glp_go fuel (i + 1) cands ws1 ws2
    else glp_go fuel (i + 1) cands ws1 ws2

/-- `gen_large_prime()` from `src/elgamal.py` lines 71-86 with the random
candidate draws and primality-test witness draws made explicit streams. -/
def gen_large_prime (fuel : Nat) (cands : Nat → Nat) (ws1 ws2 : Nat → Nat → Nat) :
    Option Nat :=
  glp_go fuel 0 cands ws1 ws2

/-- The `for g in range(2, p)` loop of `find_generator` (`src/elgamal.py`
lines 88-102), scanning upward from `g`; fuel `p` covers all `p - 2`
iterations, and the fuel-out branch coincides with the loop running off the
end of `range(2, p)` (return `None`). -/
def fg_go : Nat → Nat → Nat → Nat → Option Nat
  | 0, _, _, _ => none
  | fuel + 1, p, q, g =>
    if p ≤ g then none
    else if quick_pow g 2 p ≠ 1 ∧ quick_pow g q p ≠ 1 then some g
    else fg_go fuel p q (g + 1)

/-- `find_generator(p)` from `src/elgamal.py` lines 88-102: scan
`g = 2, 3, ...` for the first `g < p` with `g^2 mod p ≠ 1` and
`g^q mod p ≠ 1`, `q = (p-1)//2`; `none` is the `return None` fall-through. -/
def find_generator (p : Nat) : Option Nat :=
  fg_go p p ((p - 1) / 2) 2

/-- `gen_key()` from `src/elgamal.py` lines 105-115, with the prime `p`
(produced by `gen_large_prime`) and the private draw
`x = random.randint(2, p-2)` as parameters.  The source stores
`find_generator(p)` in `g` with no `None` check and feeds it straight to
`quick_pow(g, x, p)`; a `None` there makes Python raise a `TypeError` inside
`quick_pow`, modelled as propagating `none`. -/
def gen_key (p x : Nat) : Option (Nat × Nat × Nat × Nat) :=
  match find_generator p with
  | none => none
  | some g => some (p, g, quick_pow g x p, x)

/-- `signmsg(m, p, g, x)` from `src/elgamal.py` lines 146-163.  The message
is the byte list of `m.encode()`; `k` is the accepted value of the resampling
loop `k = random.randint(2, p-2) until gcd(k, p-1) == 1` (the loop's exit
conditions become hypotheses of the theorems).  `k_inv` is the raw Bezout
coefficient returned by `extended_gcd(k, p-1)` — possibly negative — and
`s = k_inv * (H_int - x*r) % (p-1)` is Python arithmetic on ints, so the `%`
is `Int.emod;` the result is a value in `[0, p-1)` returned as a `Nat`. -/
def signmsg (m : List Nat) (p g x k : Nat) : Nat × Nat :=
  let k_inv : Int := (extended_gcd k (p - 1)).2.1
  let H_int := sha256 m
  let r := quick_pow g k p
  let s : Int := k_inv * ((H_int : Int) - (x : Int) * (r : Int)) % ((p : Int) - 1)
  (r, s.toNat)

/-- `verify(m, r, s, p, g, y)` from `src/elgamal.py` lines 165-173: accept
iff `y^r * r^s mod p == g^H mod p` with `H` the SHA-256 digest of `m` as an
integer. -/
def verify (m : List Nat) (r s p g y : Nat) : Bool :=
  let H_int := sha256 m
  let yrrs := quick_pow y r p * quick_pow r s p % p
  let gH := quick_pow g H_int p
  if yrrs = gH then true else false

/-- C8: every signature `(r, s)` returned by `signmsg` — i.e. for any
accepted `k` with `1 < k < p - 1` coprime to `p - 1` — satisfies
`0 ≤ r < p` and `0 ≤ s < p - 1`: the final `% (p-1)` normalizes `s` even
though `H - x*r` may be negative and `k_inv` is a raw, possibly negative,
Bezout coefficient.  (Non-negativity holds by the `Nat` return type.) -/
theorem signmsg_range (m : List Nat) (p g x k : Nat) (hk1 : 1 < k)
    (hkp : k < p - 1) (hkco : Nat.gcd k (p - 1) = 1) :
    (signmsg m p g x k).1 < p ∧ (signmsg m p g x k).2 < p - 1 := by
  have hp4 : 4 ≤ p := by omega
  have hpZ : (4 : Int) ≤ (p : Int) := by exact_mod_cast hp4
  constructor
  · show quick_pow g k p < p
    rw [quick_pow_eq_pow_mod g k p (by omega)]
    exact Nat.mod_lt _ (by omega)
  · show (((extended_gcd k (p - 1)).2.1 *
        ((sha256 m : Int) - (x : Int) * (quick_pow g k p : Int))) %
          ((p : Int) - 1)).toNat < p - 1
    have hpos : (0 : Int) < (p : Int) - 1 := by omega
    have hnn := Int.emod_nonneg ((extended_gcd k (p - 1)).2.1 *
      ((sha256 m : Int) - (x : Int) * (quick_pow g k p : Int))) (ne_of_gt hpos)
    have hlt := Int.emod_lt_of_pos ((extended_gcd k (p - 1)).2.1 *
      ((sha256 m : Int) - (x : Int) * (quick_pow g k p : Int))) hpos
    omega

/-- Witness for `signmsg_range` at `p = 23, g = 5, x = 6, k = 5` and the
message bytes of `t`. -/
theorem signmsg_range_witness :
    1 < 5 ∧ 5 < 23 - 1 ∧ Nat.gcd 5 (23 - 1) = 1 ∧
      (signmsg [116] 23 5 6 5).1 < 23 ∧ (signmsg [116] 23 5 6 5).2 < 23 - 1 :=
  ⟨by decide, by decide, by decide,
    (signmsg_range [116] 23 5 6 5 (by decide) (by decide) (by decide)).1,
    (signmsg_range [116] 23 5 6 5 (by decide) (by decide) (by decide)).2⟩

/-- C2 (amended): for every safe prime `p`, every `g` NOT divisible by `p`
with `g^2 mod p ≠ 1` and `g^((p-1)/2) mod p ≠ 1`, every private key
`1 < x < p-1`, every message, and every accepted random `k` with
`1 < k < p-1` and `gcd(k, p-1) = 1`, the pair returned by `signmsg`
verifies against `y = g^x mod p`.  The added non-divisibility condition
cannot be dropped: see the counterexample. -/
theorem signmsg_verify (m : List Nat) (p g x k : Nat) (hp : p.Prime)
    (hq : Nat.Prime ((p - 1) / 2)) (hg2 : quick_pow g 2 p ≠ 1)
    (hgq : quick_pow g ((p - 1) / 2) p ≠ 1) (hgp : ¬p ∣ g)
    (hx1 : 1 < x) (hxp : x < p - 1) (hk1 : 1 < k) (hkp : k < p - 1)
    (hkco : Nat.gcd k (p - 1) = 1) :
    verify m (signmsg m p g x k).1 (signmsg m p g x k).2 p g (quick_pow g x p) = true := by
  have hq2 : 2 ≤ (p - 1) / 2 := hq.two_le
  have hp5 : 5 ≤ p := by omega
  have hp2 : 2 ≤ p := by omega
  have hpZ5 : (5 : Int) ≤ (p : Int) := by exact_mod_cast hp5
  have hpko : (0 : Int) < (p : Int) - 1 := by omega
  set H := sha256 m with hH_def
  set kinv : Int := (extended_gcd k (p - 1)).2.1 with hkinv_def
  set r := quick_pow g k p with hr_def
  set sZ : Int := kinv * ((H : Int) - (x : Int) * (r : Int)) % ((p : Int) - 1) with hsZ_def
  set s := sZ.toNat with hs_def
  have hsnn : 0 ≤ sZ := Int.emod_nonneg _ (ne_of_gt hpko)
  have hsZ : (s : Int) = sZ := Int.toNat_of_nonneg hsnn
  have hcast_pm1 : ((p - 1 : Nat) : Int) = (p : Int) - 1 := by
    rw [Nat.cast_sub (by omega : 1 ≤ p)]
    simp
  obtain ⟨hgcd, hbez⟩ := extended_gcd_bezout k (p - 1)
  rw [hkco] at hgcd
  rw [hgcd] at hbez
  push_cast at hbez
  have hkinv1 : (k : Int) * kinv ≡ 1 [ZMOD (p : Int) - 1] := by
    rw [Int.modEq_iff_dvd]
    refine ⟨(extended_gcd k (p - 1)).2.2, ?_⟩
    rw [← hcast_pm1]
    linarith [hbez]
  have hmod1 := Int.mod_modEq (kinv * ((H : Int) - (x : Int) * (r : Int))) ((p : Int) - 1)
  have hks : (k : Int) * sZ ≡ (H : Int) - (x : Int) * (r : Int) [ZMOD (p : Int) - 1] := by
    calc (k : Int) * sZ
        ≡ (k : Int) * (kinv * ((H : Int) - (x : Int) * (r : Int)))
          [ZMOD (p : Int) - 1] := hmod1.mul_left k
      _ = (k : Int) * kinv * ((H : Int) - (x : Int) * (r : Int)) := by ring
      _ ≡ 1 * ((H : Int) - (x : Int) * (r : Int)) [ZMOD (p : Int) - 1] :=
          hkinv1.mul_right _
      _ = (H : Int) - (x : Int) * (r : Int) := by ring
  have hcongZ : (x : Int) * r + k * sZ ≡ (H : Int) [ZMOD (p : Int) - 1] := by
    calc (x : Int) * r + k * sZ
        ≡ (x : Int) * r + ((H : Int) - (x : Int) * (r : Int)) [ZMOD (p : Int) - 1] :=
          hks.add_left _
      _ = (H : Int) := by ring
  have hcongN : x * r + k * s ≡ H [MOD p - 1] := by
    have h2 : ((x * r + k * s : Nat) : Int) ≡ ((H : Nat) : Int)
        [ZMOD ((p - 1 : Nat) : Int)] := by
      rw [hcast_pm1]
      push_cast
      rw [hsZ]
      exact hcongZ
    exact Int.natCast_modEq_iff.mp h2
  have hgpow : g ^ (x * r + k * s) ≡ g ^ H [MOD p] := pow_congr_exp p g _ _ hp hgp hcongN
  have hrpow : r = g ^ k % p := quick_pow_eq_pow_mod g k p hp2
  have hy : quick_pow g x p = g ^ x % p := quick_pow_eq_pow_mod g x p hp2
  have hlhs : quick_pow (quick_pow g x p) r p * quick_pow r s p % p = g ^ H % p := by
    rw [hy, quick_pow_eq_pow_mod _ r p hp2, quick_pow_eq_pow_mod r s p hp2]
    conv_lhs => rw [hrpow]
    rw [← Nat.pow_mod, ← Nat.pow_mod, ← pow_mul, ← pow_mul, ← Nat.mul_mod, ← pow_add]
    rw [← hrpow]
    exact hgpow
  have hproj1 : (signmsg m p g x k).1 = r := rfl
  have hproj2 : (signmsg m p g x k).2 = s := rfl
  rw [hproj1, hproj2]
  have hgH : quick_pow g H p = g ^ H % p := quick_pow_eq_pow_mod g H p hp2
  simp only [verify, ← hH_def, hgH]
  rw [if_pos (hlhs.trans hgH.symm ▸ hlhs)]

/-- C2 counterexample: the safe prime `p = 7` together with `g = 7` passes
every condition stated in the claim — `7` and `(7-1)/2 = 3` are prime,
`7^2 mod 7 = 0 ≠ 1`, `7^3 mod 7 = 0 ≠ 1`, `x = 2` with `1 < 2 < 6`, and
`k = 5` is the only admissible draw (`1 < 5 < 6`, `gcd(5, 6) = 1`) — yet for
the one-byte message `t` (byte 116), whose SHA-256 digest is a positive
multiple of `6 = p - 1`, the produced signature is `(0, 0)` and `verify`
returns `False`: the claim misses that `g` must not be a multiple of `p`. -/
theorem signmsg_verify_cex :
    Nat.Prime 7 ∧ Nat.Prime ((7 - 1) / 2) ∧ quick_pow 7 2 7 ≠ 1 ∧
      quick_pow 7 ((7 - 1) / 2) 7 ≠ 1 ∧ 1 < 2 ∧ 2 < 7 - 1 ∧ 1 < 5 ∧ 5 < 7 - 1 ∧
      Nat.gcd 5 (7 - 1) = 1 ∧
      verify [116] (signmsg [116] 7 7 2 5).1 (signmsg [116] 7 7 2 5).2 7 7
        (quick_pow 7 2 7) = false := by
  refine ⟨by norm_num, by norm_num, by decide, by decide, by decide, by decide,
    by decide, by decide, by decide, by set_option maxRecDepth 100000 in decide⟩

/-- Witness for `signmsg_verify` at the spec test vector `p = 23, g = 5,
x = 6, k = 5` and the message bytes of `test`. -/
theorem signmsg_verify_witness :
    Nat.Prime 23 ∧ Nat.Prime ((23 - 1) / 2) ∧ quick_pow 5 2 23 ≠ 1 ∧
      quick_pow 5 ((23 - 1) / 2) 23 ≠ 1 ∧ ¬23 ∣ 5 ∧ 1 < 6 ∧ 6 < 23 - 1 ∧
      1 < 5 ∧ 5 < 23 - 1 ∧ Nat.gcd 5 (23 - 1) = 1 ∧
      verify [116, 101, 115, 116] (signmsg [116, 101, 115, 116] 23 5 6 5).1
        (signmsg [116, 101, 115, 116] 23 5 6 5).2 23 5 (quick_pow 5 6 23) = true :=
  ⟨by norm_num, by norm_num, by decide, by decide, by decide, by decide, by decide,
    by decide, by decide, by decide,
    signmsg_verify [116, 101, 115, 116] 23 5 6 5 (by norm_num) (by norm_num)
      (by decide) (by decide) (by decide) (by decide) (by decide) (by decide)
      (by decide) (by decide)⟩

/-- A `some` result of the `gen_large_prime` loop can only arise from an
iteration whose candidate passed both `is_prime` calls. -/
theorem glp_go_some (cands : Nat → Nat) (ws1 ws2 : Nat → Nat → Nat) (fuel : Nat) :
    ∀ i p : Nat, glp_go fuel i cands ws1 ws2 = some p →
      ∃ j, cands j = p ∧ is_prime p 5 (ws1 j) = true ∧
        is_prime ((p - 1) / 2) 5 (ws2 j) = true := by
  induction fuel with
  | zero =>
    intro i p h
    exact absurd h (by simp [glp_go])
  | succ fuel ih =>
    intro i p h
    simp only [glp_go] at h
    by_cases h1 : is_prime (cands i) 5 (ws1 i) = true
    · rw [if_pos h1] at h
      by_cases h2 : is_prime ((cands i - 1) / 2) 5 (ws2 i) = true
      · rw [if_pos h2] at h
        have hcp : cands i = p := Option.some.inj h
        subst hcp
        exact ⟨i, rfl, h1, h2⟩
      · rw [if_neg h2] at h
        exact ih (i + 1) p h
    · rw [if_neg h1] at h
      exact ih (i + 1) p h

/-- C7: every value `p` returned by the ElGamal `gen_large_prime` lies in
`[2^63, 2^64)` (the range of the `randint` draw), and at the moment of return
both `p` and `q = (p-1)/2` pass the primality oracle with the witness draws
of that iteration. -/
theorem gen_large_prime_post (fuel : Nat) (cands : Nat → Nat)
    (ws1 ws2 : Nat → Nat → Nat) (p : Nat)
    (hc : ∀ i, 2 ^ 63 ≤ cands i ∧ cands i ≤ 2 ^ 64 - 1)
    (hret : gen_large_prime fuel cands ws1 ws2 = some p) :
    (2 ^ 63 ≤ p ∧ p < 2 ^ 64) ∧
      ∃ j, cands j = p ∧ is_prime p 5 (ws1 j) = true ∧
        is_prime ((p - 1) / 2) 5 (ws2 j) = true := by
  obtain ⟨j, hcj, h1, h2⟩ := glp_go_some cands ws1 ws2 fuel 0 p hret
  obtain ⟨hlo, hhi⟩ := hc j
  rw [hcj] at hlo hhi
  exact ⟨⟨hlo, by omega⟩, j, hcj, h1, h2⟩

/-- Witness for `gen_large_prime_post`: the constant candidate stream drawing
the 64-bit safe prime `9223372036854778487` (with `q = 4611686018427389243`),
constant primality witness draw `1` (base `a = 3`), fuel `1`. -/
theorem gen_large_prime_post_witness :
    (∀ i : Nat, 2 ^ 63 ≤ (fun _ : Nat => 9223372036854778487) i ∧
      (fun _ : Nat => 9223372036854778487) i ≤ 2 ^ 64 - 1) ∧
    gen_large_prime 1 (fun _ => 9223372036854778487) (fun _ _ => 1) (fun _ _ => 1) =
      some 9223372036854778487 ∧
    (2 ^ 63 ≤ 9223372036854778487 ∧ 9223372036854778487 < 2 ^ 64) ∧
      ∃ j, (fun _ : Nat => 9223372036854778487) j = 9223372036854778487 ∧
        is_prime 9223372036854778487 5 ((fun _ _ => 1) j) = true ∧
        is_prime ((9223372036854778487 - 1) / 2) 5 ((fun _ _ => 1) j) = true :=
  ⟨fun _ => ⟨by norm_num, by norm_num⟩,
    by set_option maxRecDepth 40000 in decide,
    gen_large_prime_post 1 (fun _ => 9223372036854778487) (fun _ _ => 1) (fun _ _ => 1)
      9223372036854778487 (fun _ => ⟨by norm_num, by norm_num⟩)
      (by set_option maxRecDepth 40000 in decide)⟩

/-- If no candidate from `g0` up to `p - 1` satisfies the two generator
conditions, the `find_generator` scan falls through and returns `none`. -/
theorem fg_go_none (p q : Nat) (fuel : Nat) :
    ∀ g0 : Nat,
      (∀ g, g0 ≤ g → g < p → ¬(quick_pow g 2 p ≠ 1 ∧ quick_pow g q p ≠ 1)) →
      fg_go fuel p q g0 = none := by
  induction fuel with
  | zero => intro g0 h; rfl
  | succ fuel ih =>
    intro g0 h
    rw [fg_go]
    by_cases hpg : p ≤ g0
    · rw [if_pos hpg]
    · rw [if_neg hpg, if_neg (h g0 le_rfl (by omega))]
      exact ih (g0 + 1) (fun g hg1 hg2 => h g (by omega) hg2)

/-- If some candidate at or above `g0` and below `p` satisfies the generator
conditions, the scan returns the least such candidate (given enough fuel). -/
theorem fg_go_some (p q : Nat) (fuel : Nat) :
    ∀ g0 : Nat, p ≤ g0 + fuel →
      (∃ g, g0 ≤ g ∧ g < p ∧ quick_pow g 2 p ≠ 1 ∧ quick_pow g q p ≠ 1) →
      ∃ g, fg_go fuel p q g0 = some g ∧ g0 ≤ g ∧ g < p ∧
        quick_pow g 2 p ≠ 1 ∧ quick_pow g q p ≠ 1 ∧
        ∀ g2, g0 ≤ g2 → g2 < g → ¬(quick_pow g2 2 p ≠ 1 ∧ quick_pow g2 q p ≠ 1) := by
  induction fuel with
  | zero =>
    intro g0 hfuel hex
    obtain ⟨g, hg1, hg2, _⟩ := hex
    omega
  | succ fuel ih =>
    intro g0 hfuel hex
    have hpg : ¬p ≤ g0 := by
      obtain ⟨g, hg1, hg2, _⟩ := hex
      omega
    by_cases hC : quick_pow g0 2 p ≠ 1 ∧ quick_pow g0 q p ≠ 1
    · refine ⟨g0, ?_, le_rfl, by omega, hC.1, hC.2, ?_⟩
      · rw [fg_go, if_neg hpg, if_pos hC]
      · intro g2 h1 h2
        omega
    · have hex2 : ∃ g, g0 + 1 ≤ g ∧ g < p ∧
          quick_pow g 2 p ≠ 1 ∧ quick_pow g q p ≠ 1 := by
        obtain ⟨g, hg1, hg2, hg3, hg4⟩ := hex
        refine ⟨g, ?_, hg2, hg3, hg4⟩
        rcases Nat.eq_or_lt_of_le hg1 with rfl | hlt
        · exact absurd ⟨hg3, hg4⟩ hC
        · omega
      obtain ⟨g, hgo, hge, hlt, hC2, hCq, hmin⟩ := ih (g0 + 1) (by omega) hex2
      refine ⟨g, ?_, by omega, hlt, hC2, hCq, ?_⟩
      · rw [fg_go, if_neg hpg, if_neg hC]
        exact hgo
      · intro g2 h1 h2
        rcases Nat.eq_or_lt_of_le h1 with rfl | hlt2
        · exact hC
        · exact hmin g2 (by omega) h2

/-- For every prime `p ≥ 5` some `g` with `2 ≤ g < p` satisfies both
generator conditions: a generator of the cyclic unit group of `ZMod p` has
order `p - 1`, which divides neither `2` nor `(p-1)/2`. -/
theorem exists_generator_cond (p : Nat) (hp : p.Prime) (hp5 : 5 ≤ p) :
    ∃ g, 2 ≤ g ∧ g < p ∧ quick_pow g 2 p ≠ 1 ∧ quick_pow g ((p - 1) / 2) p ≠ 1 := by
  haveI : Fact p.Prime := ⟨hp⟩
  haveI : NeZero p := ⟨hp.ne_zero⟩
  obtain ⟨ζ, hζ⟩ : ∃ g : (ZMod p)ˣ, ∀ u, u ∈ Subgroup.zpowers g :=
    IsCyclic.exists_generator
  have hord : orderOf ζ = p - 1 := by
    have h1 := orderOf_eq_card_of_forall_mem_zpowers hζ
    rwa [Nat.card_eq_fintype_card, ZMod.card_units p] at h1
  set gv := (ζ : ZMod p).val with hgv_def
  have hvlt : gv < p := ZMod.val_lt _
  have hcast : ((gv : Nat) : ZMod p) = (ζ : ZMod p) := ZMod.natCast_rightInverse _
  have hpow_unit : ∀ e : Nat, 1 ≤ e → e < p - 1 → quick_pow gv e p ≠ 1 := by
    intro e he1 hep hcontra
    rw [quick_pow_eq_pow_mod gv e p (by omega)] at hcontra
    have hmodeq : gv ^ e ≡ 1 [MOD p] := by
      unfold Nat.ModEq
      rw [hcontra, Nat.mod_eq_of_lt (by omega)]
    have hzm : ((gv ^ e : Nat) : ZMod p) = ((1 : Nat) : ZMod p) :=
      (ZMod.natCast_eq_natCast_iff _ _ _).mpr hmodeq
    push_cast at hzm
    rw [hcast] at hzm
    have hzu : ζ ^ e = 1 := by
      apply Units.ext
      push_cast
      exact hzm
    have hdvd := orderOf_dvd_of_pow_eq_one hzu
    rw [hord] at hdvd
    have := Nat.le_of_dvd (by omega) hdvd
    omega
  have hgv1 : gv ≠ 1 := by
    intro h1
    have hz1 : (ζ : ZMod p) = 1 := by
      rw [← hcast, h1]
      simp
    have hzu : ζ = 1 := Units.ext (by simpa using hz1)
    rw [hzu, orderOf_one] at hord
    omega
  have hgv0 : gv ≠ 0 := by
    intro h0
    have hz0 : (ζ : ZMod p) = 0 := by
      rw [← hcast, h0]
      simp
    exact ζ.ne_zero hz0
  refine ⟨gv, by omega, hvlt, ?_, ?_⟩
  · exact hpow_unit 2 (by norm_num) (by omega)
  · exact hpow_unit ((p - 1) / 2) (by omega) (by omega)

/-- C10: if no `g` in `[2, p)` satisfies both generator conditions,
`find_generator(p)` returns the sentinel `None` rather than raising, and
`gen_key` passes the failure onward (the unchecked `None` reaches
`quick_pow`, modelled as a propagated `none`); while for every actual safe
prime `p` — what `gen_large_prime` is built to produce — the `None` branch is
unreachable and `find_generator` returns the smallest valid `g ≥ 2`, which
`gen_key` packages with `y = g^x mod p`. -/
theorem find_generator_spec (p x : Nat) :
    ((∀ g, 2 ≤ g → g < p → ¬(quick_pow g 2 p ≠ 1 ∧ quick_pow g ((p - 1) / 2) p ≠ 1)) →
      find_generator p = none ∧ gen_key p x = none) ∧
    (p.Prime → Nat.Prime ((p - 1) / 2) →
      ∃ g, find_generator p = some g ∧ 2 ≤ g ∧ g < p ∧
        quick_pow g 2 p ≠ 1 ∧ quick_pow g ((p - 1) / 2) p ≠ 1 ∧
        (∀ g2, 2 ≤ g2 → g2 < g →
          ¬(quick_pow g2 2 p ≠ 1 ∧ quick_pow g2 ((p - 1) / 2) p ≠ 1)) ∧
        gen_key p x = some (p, g, quick_pow g x p, x)) := by
  constructor
  · intro h
    have hnone : find_generator p = none := fg_go_none p ((p - 1) / 2) p 2 h
    exact ⟨hnone, by simp [gen_key, hnone]⟩
  · intro hp hq
    have hq2 : 2 ≤ (p - 1) / 2 := hq.two_le
    have hp5 : 5 ≤ p := by omega
    obtain ⟨g, hg2, hglt, hgc1, hgc2⟩ := exists_generator_cond p hp hp5
    obtain ⟨g1, hgo, hge, hlt, hc1, hc2, hmin⟩ :=
      fg_go_some p ((p - 1) / 2) p 2 (by omega) ⟨g, hg2, hglt, hgc1, hgc2⟩
    refine ⟨g1, hgo, hge, hlt, hc1, hc2, hmin, ?_⟩
    have hfg : find_generator p = some g1 := hgo
    simp [gen_key, hfg]

/-- Witness for `find_generator_spec`: the empty-range case at `p = 2`
(`range(2, 2)` is empty, so `find_generator` returns `None` and `gen_key`
propagates it), and the safe prime case at `p = 7`. -/
theorem find_generator_spec_witness :
    (find_generator 2 = none ∧ gen_key 2 1 = none) ∧
      (Nat.Prime 7 ∧ Nat.Prime ((7 - 1) / 2) ∧
        ∃ g, find_generator 7 = some g ∧ 2 ≤ g ∧ g < 7 ∧
          quick_pow g 2 7 ≠ 1 ∧ quick_pow g ((7 - 1) / 2) 7 ≠ 1 ∧
          (∀ g2, 2 ≤ g2 → g2 < g →
            ¬(quick_pow g2 2 7 ≠ 1 ∧ quick_pow g2 ((7 - 1) / 2) 7 ≠ 1)) ∧
          gen_key 7 3 = some (7, g, quick_pow g 3 7, 3)) :=
  ⟨(find_generator_spec 2 1).1 (fun g h1 h2 => absurd (by omega : (2 : Nat) < 2)
      (by omega)),
    by norm_num, by norm_num,
    (find_generator_spec 7 3).2 (by norm_num) (by norm_num)⟩
